import Mathlib

/-!
Verification of the cluster-level permutation test pipeline described by the
repository's specification, against the example script
`examples/stats/plot_cluster_stats_spatio_temporal_2samp.py`.

The core engine (`spatio_temporal_cluster_test` and its ClusterFinder /
PermutationEngine / Orchestrator internals) lives in the `mne.stats` package,
which is not part of this repository snapshot; the snapshot contains only the
example script that calls it.  Those components are therefore modelled from
the specification (each such definition carries a doc comment starting with
`Modelled from the spec:`), while the example script's own computations
(threshold construction, cluster visualization arithmetic) are embedded
directly from the source.  Real-valued data is embedded as rationals.
-/

set_option linter.unusedSectionVars false
set_option linter.unusedVariables false
set_option maxRecDepth 8000

namespace CC

/-! Generic connected-component machinery over a finite vertex type: the
spec's ClusterFinder computes connected components (union-find or BFS)
restricted to the active-index set.  We model this as iterated frontier
expansion until the (guaranteed) fixpoint. -/

variable {α : Type} [DecidableEq α] [Fintype α]

/-- One expansion step of the flood fill: add every element of the active
set `s` that is adjacent (under `r`) to something already collected. -/
def expandStep (r : α → α → Bool) (s : Finset α) (c : Finset α) : Finset α :=
  c ∪ s.filter (fun x => ∃ y ∈ c, r y x = true)

/-- The connected component of seed `i` inside active set `s` under
adjacency `r`: iterate the expansion step `Fintype.card α` times, which is
enough to reach the fixpoint. -/
def component (r : α → α → Bool) (s : Finset α) (i : α) : Finset α :=
  (expandStep r s)^[Fintype.card α] {i}

/-- The set of clusters: one component per active seed (duplicates collapse
in the image). -/
def clustersOf (r : α → α → Bool) (s : Finset α) : Finset (Finset α) :=
  s.image (component r s)

theorem subset_expandStep (r : α → α → Bool) (s c : Finset α) :
    c ⊆ expandStep r s c :=
  Finset.subset_union_left

theorem expandStep_subset (r : α → α → Bool) (s c : Finset α) :
    expandStep r s c ⊆ c ∪ s := by
  intro x hx
  rcases Finset.mem_union.mp hx with h | h
  · exact Finset.mem_union.mpr (Or.inl h)
  · exact Finset.mem_union.mpr (Or.inr (Finset.mem_of_mem_filter x h))

theorem expandStep_mono (r : α → α → Bool) {s s' c d : Finset α}
    (hs : s ⊆ s') (hc : c ⊆ d) : expandStep r s c ⊆ expandStep r s' d := by
  intro x hx
  rcases Finset.mem_union.mp hx with h | h
  · exact Finset.mem_union.mpr (Or.inl (hc h))
  · rcases Finset.mem_filter.mp h with ⟨hxs, y, hy, hr⟩
    exact Finset.mem_union.mpr
      (Or.inr (Finset.mem_filter.mpr ⟨hs hxs, y, hc hy, hr⟩))

theorem subset_iterate (r : α → α → Bool) (s c : Finset α) (n : ℕ) :
    c ⊆ (expandStep r s)^[n] c := by
  induction n with
  | zero => simp
  | succ n ih =>
    rw [Function.iterate_succ_apply']
    exact ih.trans (subset_expandStep r s _)

theorem iterate_mono (r : α → α → Bool) {s s' c d : Finset α}
    (hs : s ⊆ s') (hc : c ⊆ d) (n : ℕ) :
    (expandStep r s)^[n] c ⊆ (expandStep r s')^[n] d := by
  induction n generalizing c d with
  | zero => simpa
  | succ n ih =>
    rw [Function.iterate_succ_apply, Function.iterate_succ_apply]
    exact ih (expandStep_mono r hs hc)

theorem iterate_subset_union (r : α → α → Bool) (s c : Finset α) (n : ℕ) :
    (expandStep r s)^[n] c ⊆ c ∪ s := by
  induction n with
  | zero => simp
  | succ n ih =>
    rw [Function.iterate_succ_apply']
    refine (expandStep_subset r s _).trans ?_
    intro x hx
    rcases Finset.mem_union.mp hx with h | h
    · exact ih h
    · exact Finset.mem_union.mpr (Or.inr h)

theorem iterate_stab (r : α → α → Bool) (s c : Finset α) {n : ℕ}
    (h : (expandStep r s)^[n + 1] c = (expandStep r s)^[n] c) :
    ∀ m, n ≤ m → (expandStep r s)^[m] c = (expandStep r s)^[n] c := by
  intro m hm
  induction m with
  | zero => cases Nat.le_zero.mp hm; rfl
  | succ m ih =>
    rcases Nat.lt_or_ge n (m + 1) with hlt | hge
    · have hnm : n ≤ m := Nat.lt_succ_iff.mp hlt
      rw [Function.iterate_succ_apply', ih hnm]
      exact (Function.iterate_succ_apply' (expandStep r s) n c).symm.trans h
    · have heqn : n = m + 1 := Nat.le_antisymm hm hge
      rw [heqn]

theorem card_le_iterate (r : α → α → Bool) (s c : Finset α) :
    ∀ n : ℕ, (∀ m, m < n →
        (expandStep r s)^[m + 1] c ≠ (expandStep r s)^[m] c) →
      c.card + n ≤ ((expandStep r s)^[n] c).card := by
  intro n
  induction n with
  | zero => simp
  | succ n ih =>
    intro h
    have h1 : c.card + n ≤ ((expandStep r s)^[n] c).card :=
      ih (fun m hm => h m (Nat.lt_succ_of_lt hm))
    have hne : (expandStep r s)^[n + 1] c ≠ (expandStep r s)^[n] c :=
      h n (Nat.lt_succ_self n)
    have hss : (expandStep r s)^[n] c ⊆ (expandStep r s)^[n + 1] c := by
      rw [Function.iterate_succ_apply']
      exact subset_expandStep r s _
    have hlt : ((expandStep r s)^[n] c).card < ((expandStep r s)^[n + 1] c).card :=
      Finset.card_lt_card (Finset.ssubset_iff_subset_ne.mpr ⟨hss, Ne.symm hne⟩)
    omega

/-- The component is a fixpoint of the expansion step. -/
theorem expandStep_component (r : α → α → Bool) (s : Finset α) (i : α) :
    expandStep r s (component r s i) = component r s i := by
  by_cases hfix : ∃ m, m < Fintype.card α ∧
      (expandStep r s)^[m + 1] ({i} : Finset α) = (expandStep r s)^[m] {i}
  · rcases hfix with ⟨m, hm, heq⟩
    have hstab := iterate_stab r s {i} heq
    have h1 : (expandStep r s)^[Fintype.card α] ({i} : Finset α) =
        (expandStep r s)^[m] {i} := hstab (Fintype.card α) (Nat.le_of_lt hm)
    show expandStep r s ((expandStep r s)^[Fintype.card α] {i}) =
      (expandStep r s)^[Fintype.card α] {i}
    rw [h1]
    exact (Function.iterate_succ_apply' (expandStep r s) m {i}).symm.trans heq
  · push_neg at hfix
    have hgrow := card_le_iterate r s {i} (Fintype.card α)
      (fun m hm => hfix m hm)
    have hcard : ((expandStep r s)^[Fintype.card α] ({i} : Finset α)).card ≤
        Fintype.card α := Finset.card_le_univ _
    simp only [Finset.card_singleton] at hgrow
    omega

/-- Closure: an active neighbor of a component member is in the component. -/
theorem mem_component_of_rel (r : α → α → Bool) (s : Finset α) {i x y : α}
    (hx : x ∈ component r s i) (hy : y ∈ s) (hr : r x y = true) :
    y ∈ component r s i := by
  have : y ∈ expandStep r s (component r s i) :=
    Finset.mem_union.mpr (Or.inr (Finset.mem_filter.mpr ⟨hy, x, hx, hr⟩))
  rwa [expandStep_component] at this

theorem mem_component_self (r : α → α → Bool) (s : Finset α) (i : α) :
    i ∈ component r s i :=
  subset_iterate r s {i} (Fintype.card α) (Finset.mem_singleton_self i)

theorem component_subset (r : α → α → Bool) (s : Finset α) {i : α}
    (hi : i ∈ s) : component r s i ⊆ s := by
  refine (iterate_subset_union r s {i} (Fintype.card α)).trans ?_
  intro x hx
  rcases Finset.mem_union.mp hx with h | h
  · rwa [Finset.mem_singleton.mp h]
  · exact h

/-- The component of `j` is contained in any set that contains `j` and is
closed under taking active neighbors. -/
theorem component_subset_closed (r : α → α → Bool) (s : Finset α) {j : α}
    {D : Finset α} (hj : j ∈ D)
    (hclosed : ∀ x ∈ D, ∀ y ∈ s, r x y = true → y ∈ D) :
    component r s j ⊆ D := by
  have key : ∀ n : ℕ, (expandStep r s)^[n] ({j} : Finset α) ⊆ D := by
    intro n
    induction n with
    | zero => simpa using Finset.singleton_subset_iff.mpr hj
    | succ n ih =>
      rw [Function.iterate_succ_apply']
      intro x hx
      rcases Finset.mem_union.mp hx with h | h
      · exact ih h
      · rcases Finset.mem_filter.mp h with ⟨hxs, y, hy, hr⟩
        exact hclosed y (ih hy) x hxs hr
  exact key (Fintype.card α)

/-- For a symmetric relation, membership in components is symmetric. -/
theorem mem_component_symm (r : α → α → Bool) (s : Finset α)
    (hsym : ∀ a b, r a b = r b a) {i j : α} (hi : i ∈ s)
    (hj : j ∈ component r s i) : i ∈ component r s j := by
  have key : ∀ n : ℕ, ∀ x ∈ (expandStep r s)^[n] ({i} : Finset α),
      i ∈ component r s x := by
    intro n
    induction n with
    | zero =>
      intro x hx
      rw [Finset.mem_singleton.mp hx]
      exact mem_component_self r s i
    | succ n ih =>
      intro x hx
      rw [Function.iterate_succ_apply'] at hx
      rcases Finset.mem_union.mp hx with h | h
      · exact ih x h
      · rcases Finset.mem_filter.mp h with ⟨hxs, y, hy, hr⟩
        have hys : y ∈ s := by
          have := iterate_subset_union r s {i} n hy
          rcases Finset.mem_union.mp this with h' | h'
          · rw [Finset.mem_singleton.mp h']; exact hi
          · exact h'
        have hyx : y ∈ component r s x := by
          refine mem_component_of_rel r s (mem_component_self r s x) hys ?_
          rw [hsym x y, hr]
        have hsub : component r s y ⊆ component r s x :=
          component_subset_closed r s hyx
            (fun a ha b hb hab => mem_component_of_rel r s ha hb hab)
        exact hsub (ih y hy)
  exact key (Fintype.card α) j hj

/-- Components of a symmetric relation through a common point coincide. -/
theorem component_eq_of_mem (r : α → α → Bool) (s : Finset α)
    (hsym : ∀ a b, r a b = r b a) {i j : α} (hi : i ∈ s)
    (hj : j ∈ component r s i) : component r s j = component r s i := by
  apply Finset.Subset.antisymm
  · exact component_subset_closed r s hj
      (fun a ha b hb hab => mem_component_of_rel r s ha hb hab)
  · exact component_subset_closed r s (mem_component_symm r s hsym hi hj)
      (fun a ha b hb hab => mem_component_of_rel r s ha hb hab)

/-- Every active index is covered by a cluster. -/
theorem clustersOf_cover (r : α → α → Bool) (s : Finset α) {x : α}
    (hx : x ∈ s) : ∃ C ∈ clustersOf r s, x ∈ C :=
  ⟨component r s x, Finset.mem_image_of_mem _ hx, mem_component_self r s x⟩

/-- Every cluster contains only active indices. -/
theorem clustersOf_subset (r : α → α → Bool) (s : Finset α) {C : Finset α}
    (hC : C ∈ clustersOf r s) : C ⊆ s := by
  rcases Finset.mem_image.mp hC with ⟨i, hi, rfl⟩
  exact component_subset r s hi

/-- Distinct clusters of a symmetric relation are disjoint. -/
theorem clustersOf_disjoint (r : α → α → Bool) (s : Finset α)
    (hsym : ∀ a b, r a b = r b a) {C D : Finset α}
    (hC : C ∈ clustersOf r s) (hD : D ∈ clustersOf r s) (hne : C ≠ D)
    {x : α} (hxC : x ∈ C) : x ∉ D := by
  intro hxD
  rcases Finset.mem_image.mp hC with ⟨i, hi, rfl⟩
  rcases Finset.mem_image.mp hD with ⟨j, hj, rfl⟩
  have hxs : x ∈ s := component_subset r s hi hxC
  have h1 : component r s x = component r s i :=
    component_eq_of_mem r s hsym hi hxC
  have h2 : component r s x = component r s j :=
    component_eq_of_mem r s hsym hj hxD
  exact hne (h1 ▸ h2.symm ▸ rfl)

/-- Restriction: if edges out of the sub-active-set `s'` (inside `s`) stay in
`s'` and coincide with the edges of `r'`, the component of a seed in `s'` is
the same whether computed in the big system or the restricted one. -/
theorem component_restrict (r r' : α → α → Bool) (s s' : Finset α)
    (hsub : s' ⊆ s)
    (hout : ∀ y ∈ s', ∀ x ∈ s, r y x = true → x ∈ s' ∧ r' y x = true)
    (hin : ∀ y ∈ s', ∀ x ∈ s', r' y x = true → r y x = true)
    {i : α} (hi : i ∈ s') : component r s i = component r' s' i := by
  have key : ∀ n : ℕ,
      (expandStep r s)^[n] ({i} : Finset α) =
        (expandStep r' s')^[n] ({i} : Finset α) ∧
      (expandStep r' s')^[n] ({i} : Finset α) ⊆ s' := by
    intro n
    induction n with
    | zero =>
      exact ⟨rfl, by simpa using Finset.singleton_subset_iff.mpr hi⟩
    | succ n ih =>
      rcases ih with ⟨heq, hss⟩
      constructor
      · rw [Function.iterate_succ_apply', Function.iterate_succ_apply', heq]
        apply Finset.Subset.antisymm
        · intro x hx
          rcases Finset.mem_union.mp hx with h | h
          · exact Finset.mem_union.mpr (Or.inl h)
          · rcases Finset.mem_filter.mp h with ⟨hxs, y, hy, hr⟩
            rcases hout y (hss hy) x hxs hr with ⟨hxs', hr'⟩
            exact Finset.mem_union.mpr
              (Or.inr (Finset.mem_filter.mpr ⟨hxs', y, hy, hr'⟩))
        · intro x hx
          rcases Finset.mem_union.mp hx with h | h
          · exact Finset.mem_union.mpr (Or.inl h)
          · rcases Finset.mem_filter.mp h with ⟨hxs, y, hy, hr⟩
            exact Finset.mem_union.mpr (Or.inr (Finset.mem_filter.mpr
              ⟨hsub hxs, y, hy, hin y (hss hy) x hxs hr⟩))
      · rw [Function.iterate_succ_apply']
        intro x hx
        rcases Finset.mem_union.mp hx with h | h
        · exact hss h
        · exact Finset.mem_of_mem_filter x h
  exact (key (Fintype.card α)).1

/-- Components never leave a side-set `D` that the seed starts in, provided
edges from `D` into the active set stay in `D`. -/
theorem component_side (r : α → α → Bool) (s : Finset α) {i : α}
    {D : Finset α} (hi : i ∈ D)
    (hside : ∀ x ∈ D, ∀ y ∈ s, r x y = true → y ∈ D) :
    component r s i ⊆ D :=
  component_subset_closed r s hi hside

end CC

namespace MNE

/-- Modelled from the spec: the tail mode of the cluster test
(`tail_mode ∈ {positive, negative, two-tailed}`, §6). -/
inductive TailMode
  | pos
  | neg
  | twoTailed
deriving DecidableEq

/-- Modelled from the spec: activity of one statistic value under a tail
mode — `S[t,v]` "exceeds τ (or is below −τ, or either, per tail mode)"
(§4.2).  The component is missing from the snapshot (it lives in
`mne.stats`). -/
def tailActive (mode : TailMode) (τ x : ℚ) : Bool :=
  match mode with
  | .pos => decide (τ < x)
  | .neg => decide (x < -τ)
  | .twoTailed => decide (τ < |x|)

/-- Modelled from the spec: the active-index set of a pointwise statistic
array `S : time × space → ℚ` at threshold `τ` (§4.2). -/
def activeSet {T V : ℕ} (mode : TailMode) (S : Fin T → Fin V → ℚ) (τ : ℚ) :
    Finset (Fin T × Fin V) :=
  Finset.univ.filter (fun i => tailActive mode τ (S i.1 i.2) = true)

/-- Modelled from the spec: the combined time×space adjacency — "same v with
|Δt| = 1, or same t with v,v' adjacent per A" (§4.2).  `A` is the supplied
spatial AdjacencyStructure. -/
def gridAdj {T V : ℕ} (A : Fin V → Fin V → Bool) (i j : Fin T × Fin V) :
    Bool :=
  (i.2 == j.2 && (i.1.val + 1 == j.1.val || j.1.val + 1 == i.1.val)) ||
    (i.1 == j.1 && A i.2 j.2)

/-- Modelled from the spec: in two-tailed mode "positive- and
negative-exceeding indices must never be merged into the same cluster even
if graph-adjacent" (§4.2) — an edge additionally requires both endpoints to
lie on the same sign side of the statistic. -/
def sideOk {T V : ℕ} (mode : TailMode) (S : Fin T → Fin V → ℚ)
    (i j : Fin T × Fin V) : Bool :=
  match mode with
  | .twoTailed => decide (0 < S i.1 i.2) == decide (0 < S j.1 j.2)
  | _ => true

/-- Modelled from the spec: the edge relation of the implicit graph over
active indices (§4.2). -/
def clusterRel {T V : ℕ} (mode : TailMode) (S : Fin T → Fin V → ℚ)
    (A : Fin V → Fin V → Bool) (i j : Fin T × Fin V) : Bool :=
  gridAdj A i j && sideOk mode S i j

/-- Modelled from the spec: the ClusterFinder — connected components of the
implicit graph restricted to active indices (§4.2), with the missing
component (`mne.stats` clustering) modelled as iterated flood fill. -/
def findClusters {T V : ℕ} (mode : TailMode) (S : Fin T → Fin V → ℚ)
    (τ : ℚ) (A : Fin V → Fin V → Bool) : Finset (Finset (Fin T × Fin V)) :=
  CC.clustersOf (clusterRel mode S A) (activeSet mode S τ)

/-- Modelled from the spec: a cluster's summary value, the sum of the
pointwise statistic over its members (§4.2). -/
def clusterSum {T V : ℕ} (S : Fin T → Fin V → ℚ)
    (C : Finset (Fin T × Fin V)) : ℚ :=
  C.sum (fun i => S i.1 i.2)

theorem gridAdj_symm {T V : ℕ} (A : Fin V → Fin V → Bool)
    (hA : ∀ u v, A u v = A v u) (i j : Fin T × Fin V) :
    gridAdj A i j = gridAdj A j i := by
  rcases i with ⟨it, iv⟩
  rcases j with ⟨jt, jv⟩
  apply Bool.eq_iff_iff.mpr
  simp only [gridAdj, Bool.or_eq_true, Bool.and_eq_true, beq_iff_eq]
  rw [hA iv jv]
  constructor
  · rintro (⟨h1, h2 | h2⟩ | ⟨h1, h2⟩)
    · exact Or.inl ⟨h1.symm, Or.inr h2⟩
    · exact Or.inl ⟨h1.symm, Or.inl h2⟩
    · exact Or.inr ⟨h1.symm, h2⟩
  · rintro (⟨h1, h2 | h2⟩ | ⟨h1, h2⟩)
    · exact Or.inl ⟨h1.symm, Or.inr h2⟩
    · exact Or.inl ⟨h1.symm, Or.inl h2⟩
    · exact Or.inr ⟨h1.symm, h2⟩

theorem sideOk_symm {T V : ℕ} (mode : TailMode) (S : Fin T → Fin V → ℚ)
    (i j : Fin T × Fin V) : sideOk mode S i j = sideOk mode S j i := by
  cases mode with
  | twoTailed =>
    simp only [sideOk]
    rcases Bool.eq_false_or_eq_true (decide (0 < S i.1 i.2)) with h | h <;>
      rcases Bool.eq_false_or_eq_true (decide (0 < S j.1 j.2)) with h' | h' <;>
        rw [h, h'] <;> rfl
  | pos => rfl
  | neg => rfl

theorem clusterRel_symm {T V : ℕ} (mode : TailMode) (S : Fin T → Fin V → ℚ)
    (A : Fin V → Fin V → Bool) (hA : ∀ u v, A u v = A v u)
    (i j : Fin T × Fin V) :
    clusterRel mode S A i j = clusterRel mode S A j i := by
  simp only [clusterRel, gridAdj_symm A hA i j, sideOk_symm mode S i j]

/-- Modelled from the spec: the Monte Carlo corrected p-value of a cluster
with summary `c` against the null distribution `H0` (§4.4):
`(1 + count(H0 values ≥ |c|)) / (1 + N)` where `N = H0.length`. -/
def pValue (H0 : List ℚ) (c : ℚ) : ℚ :=
  (1 + ((H0.filter (fun h => decide (|c| ≤ h))).length : ℚ)) /
    (1 + (H0.length : ℚ))

/-- Modelled from the spec: an observed cluster as returned by the
Orchestrator — its member index set and scalar summary (§3). -/
structure ObsCluster (T V : ℕ) where
  members : Finset (Fin T × Fin V)
  summary : ℚ
deriving DecidableEq

/-- Modelled from the spec: the Orchestrator's stable output order — by
descending absolute summary value (§4.4). -/
def descOrder {T V : ℕ} (a b : ObsCluster T V) : Prop :=
  |b.summary| ≤ |a.summary|

instance {T V : ℕ} : DecidableRel (@descOrder T V) :=
  fun a b => inferInstanceAs (Decidable (_ ≤ _))

instance {T V : ℕ} : IsTotal (ObsCluster T V) descOrder :=
  ⟨fun a b => le_total (abs b.summary) (abs a.summary)⟩

instance {T V : ℕ} : IsTrans (ObsCluster T V) descOrder :=
  ⟨fun _ _ _ h1 h2 => le_trans h2 h1⟩

/-- Modelled from the spec: the Orchestrator's result assembly (§4.4) —
clusters sorted by descending absolute summary value, paired index-aligned
with their corrected p-values. -/
def orchestrate {T V : ℕ} (H0 : List ℚ) (l : List (ObsCluster T V)) :
    List (ObsCluster T V) × List ℚ :=
  let sorted := l.insertionSort descOrder
  (sorted, sorted.map (fun c => pValue H0 c.summary))

/-- The full (time, space) index grid as a concrete list, row-major. -/
def allIdx (T V : ℕ) : List (Fin T × Fin V) :=
  (List.finRange T).flatMap (fun t => (List.finRange V).map (fun v => (t, v)))

/-- Modelled from the spec: the active indices of the grid, enumerated in a
fixed traversal order (§4.2). -/
def activeList {T V : ℕ} (mode : TailMode) (S : Fin T → Fin V → ℚ)
    (τ : ℚ) : List (Fin T × Fin V) :=
  (allIdx T V).filter (fun i => tailActive mode τ (S i.1 i.2))

/-- Modelled from the spec: the clusters of one ClusterFinder invocation as
a duplicate-free list — one connected component per active seed (§4.2). -/
def clusterList {T V : ℕ} (mode : TailMode) (S : Fin T → Fin V → ℚ)
    (τ : ℚ) (A : Fin V → Fin V → Bool) : List (Finset (Fin T × Fin V)) :=
  ((activeList mode S τ).map
    (CC.component (clusterRel mode S A) (activeSet mode S τ))).dedup

/-- Modelled from the spec: the observed clusters with their summaries,
from one ClusterFinder invocation on the observed statistic (§4.4). -/
def observedClusters {T V : ℕ} (mode : TailMode) (S : Fin T → Fin V → ℚ)
    (τ : ℚ) (A : Fin V → Fin V → Bool) : List (ObsCluster T V) :=
  (clusterList mode S τ A).map (fun m => ⟨m, clusterSum S m⟩)

/-- Modelled from the spec: the Orchestrator applied to the observed data
(§2 control flow): observed clusters, then p-value assignment against H0. -/
def pipeline {T V : ℕ} (mode : TailMode) (S : Fin T → Fin V → ℚ) (τ : ℚ)
    (A : Fin V → Fin V → Bool) (H0 : List ℚ) :
    List (ObsCluster T V) × List ℚ :=
  orchestrate H0 (observedClusters mode S τ A)

/-- Modelled from the spec: a deterministic pseudo-random step (the spec
only requires a seeded, exactly reproducible generator, §4.3); a standard
linear congruential generator. -/
def lcg (x : ℕ) : ℕ := (1103515245 * x + 12345) % 2147483648

/-- Modelled from the spec: a seeded shuffle of the pooled subject labels —
sampling without replacement a reordering of the pool (§4.3). -/
def shuffleFrom (st : ℕ) (l : List ℕ) : List ℕ :=
  match l with
  | [] => []
  | a :: rest =>
    (a :: rest).getD (st % (a :: rest).length) 0 ::
      shuffleFrom (lcg st) ((a :: rest).eraseIdx (st % (a :: rest).length))
termination_by l.length
decreasing_by
  simp only [List.length_eraseIdx, List.length_cons]
  have hk : st % (rest.length + 1) < rest.length + 1 :=
    Nat.mod_lt _ (Nat.succ_pos rest.length)
  rw [if_pos hk]
  omega

/-- Modelled from the spec: the relabeling used for permutation `p` under
seed `seed` — a deterministic shuffle of the pooled subject indices; the
first `n₁` labels form group 1, the rest group 2, preserving original group
sizes (§4.3). -/
def permLabels (nTotal seed p : ℕ) : List ℕ :=
  shuffleFrom (lcg (seed + p + 1)) (List.range nTotal)

/-- Modelled from the spec: the single largest cluster summary magnitude of
one permutation, `0` if no cluster exceeds threshold (§4.3). -/
def maxClusterStat {T V : ℕ} (mode : TailMode) (S : Fin T → Fin V → ℚ)
    (τ : ℚ) (A : Fin V → Fin V → Bool) : ℚ :=
  ((clusterList mode S τ A).map (fun C => |clusterSum S C|)).foldr max 0

/-- Modelled from the spec: worker `w`'s pre-determined, order-assigned
permutation indices under parallelism degree `jobs` (§4.3, §5). -/
def workerIdx (N jobs w : ℕ) : List ℕ :=
  (List.range N).filter (fun i => i % jobs == w)

/-- Modelled from the spec: the null distribution accumulated by the worker
pool — each worker returns its scalars to a single collector, which
concatenates the per-worker result lists (§5). -/
def engineH0 (N jobs : ℕ) (f : ℕ → ℚ) : List ℚ :=
  (List.range jobs).flatMap (fun w => (workerIdx N jobs w).map f)

/-- Modelled from the spec: the full pipeline (§2): pointwise statistic of
the observed (identity) labeling, permutation-driven null distribution with
`N` permutations at parallelism degree `jobs` and seed `seed`, then
orchestration.  `statOf` is the pluggable StatisticFunction applied to a
subject relabeling (§4.1). -/
def fullRun {T V : ℕ} (mode : TailMode)
    (statOf : List ℕ → Fin T → Fin V → ℚ) (nTotal N seed jobs : ℕ)
    (τ : ℚ) (A : Fin V → Fin V → Bool) :
    List (ObsCluster T V) × List ℚ :=
  pipeline mode (statOf (List.range nTotal)) τ A
    (engineH0 N jobs (fun p =>
      maxClusterStat mode (statOf (permLabels nTotal seed p)) τ A))

/-- The members of a cluster as a concrete list, grid traversal order. -/
def memberList {T V : ℕ} (C : Finset (Fin T × Fin V)) :
    List (Fin T × Fin V) :=
  (allIdx T V).filter (fun i => i ∈ C)

/-- Modelled from the spec: the `(time-index array, space-index array)`
form in which `spatio_temporal_cluster_test` (missing from the snapshot)
returns each cluster to the example script, which reads
`t_inds = clusters[i][0]` and `v_inds = clusters[i][1]`. -/
def clusterPairs {T V : ℕ} (C : Finset (Fin T × Fin V)) :
    List ℕ × List ℕ :=
  ((memberList C).map (fun i => i.1.val),
    (memberList C).map (fun i => i.2.val))

/-- The clusters of a pipeline run, in the paired index-array form the
script consumes. -/
def resultPairs {T V : ℕ} (mode : TailMode) (S : Fin T → Fin V → ℚ)
    (τ : ℚ) (A : Fin V → Fin V → Bool) (H0 : List ℚ) :
    List (List ℕ × List ℕ) :=
  (pipeline mode S τ A H0).1.map (fun c => clusterPairs c.members)

end MNE

namespace CE

/-! Concrete inputs used to separate claims from the code's behavior. -/

/-- A 1×2 statistic grid with one positive and one negative value. -/
def ceS : Fin 1 → Fin 2 → ℚ := fun _ v => if v = 0 then 1 else -1

/-- The two vertices are spatial neighbors. -/
def ceA : Fin 2 → Fin 2 → Bool := fun u v => u != v

end CE

namespace Script

/-! Embedding of the computations performed by the example script
`examples/stats/plot_cluster_stats_spatio_temporal_2samp.py` itself. -/

/-- `p_threshold = 0.0001` (script). -/
def p_threshold : ℚ := 1 / 10000

/-- `n_subjects1 = 7` (script). -/
def n_subjects1 : ℕ := 7

/-- `n_subjects2 = 9` (script). -/
def n_subjects2 : ℕ := 9

/-- The script's cluster-forming threshold:
`f_threshold = stats.distributions.f.ppf(1. - p_threshold / 2., n_subjects1 - 1, n_subjects2 - 1)`.
The SciPy F-distribution quantile function `f.ppf` is an external
collaborator, so the embedding is parametric in it (`ppf q d1 d2` is the
`q`-quantile with numerator/denominator degrees of freedom `d1`, `d2`). -/
def f_threshold (ppf : ℚ → ℕ → ℕ → ℚ) : ℚ :=
  ppf (1 - p_threshold / 2) (n_subjects1 - 1) (n_subjects2 - 1)

/-- The `threshold=` argument the script passes to
`spatio_temporal_cluster_test` is exactly `f_threshold`. -/
def callThreshold (ppf : ℚ → ℕ → ℕ → ℚ) : ℚ := f_threshold ppf

/-- A stand-in quantile function, strictly monotone in the probability
argument, used to separate distinct tail probabilities. -/
def probePpf (q : ℚ) (d1 d2 : ℕ) : ℚ := q + d1 - d2

/-- `np.sign` on a rational. -/
def signOf (x : ℚ) : ℚ := if 0 < x then 1 else if x < 0 then -1 else 0

/-- `data.fill(0)` followed by `data[v_inds, t_inds] = T_obs[t_inds, v_inds]`
as a sequential fold over the paired fancy indices; the result is the
`data` buffer indexed `[vertex, time]`. -/
def assignData (Tobs : ℕ → ℕ → ℚ) (v_inds t_inds : List ℕ) :
    ℕ → ℕ → ℚ :=
  (v_inds.zip t_inds).foldl
    (fun d p => fun v t => if v = p.1 ∧ t = p.2 then Tobs p.2 p.1 else d v t)
    (fun _ _ => 0)

/-- `data = np.sign(data) * np.logical_not(data == 0) * tstep` pointwise. -/
def signedDurData (Tobs : ℕ → ℕ → ℚ) (v_inds t_inds : List ℕ) (tstep : ℚ)
    (v t : ℕ) : ℚ :=
  signOf (assignData Tobs v_inds t_inds v t) *
    (if assignData Tobs v_inds t_inds v t = 0 then 0 else 1) * tstep

/-- `data_summary[:, ii + 1] = 1e3 * np.sum(data, axis=1)`: the value
stored in one summary column at vertex `v`. -/
def summaryCol (Tobs : ℕ → ℕ → ℚ) (n_times : ℕ) (v_inds t_inds : List ℕ)
    (tstep : ℚ) (v : ℕ) : ℚ :=
  1000 * ∑ t ∈ Finset.range n_times, signedDurData Tobs v_inds t_inds tstep v t

/-- The column computed for one cluster entry `(t_inds, v_inds)`
(the script reads `t_inds = clusters[ci][0]`, `v_inds = clusters[ci][1]`). -/
def colOf (Tobs : ℕ → ℕ → ℚ) (n_times : ℕ) (tstep : ℚ)
    (cl : List ℕ × List ℕ) (v : ℕ) : ℚ :=
  summaryCol Tobs n_times cl.2 cl.1 tstep v

/-- Functional update of one column of the `data_summary` buffer
(indexed column-first: `ds c v`). -/
def updateCol (ds : ℕ → ℕ → ℚ) (c : ℕ) (col : ℕ → ℚ) : ℕ → ℕ → ℚ :=
  fun c' v => if c' = c then col v else ds c' v

/-- The script's `for ii, cluster_ind in enumerate(good_cluster_inds)` loop:
iteration `ii` (counting from `k`) recomputes `data` from a zero-filled
buffer for cluster `good[ii]` and writes column `ii + 1`. -/
def loopFill (Tobs : ℕ → ℕ → ℚ) (n_times : ℕ)
    (clusters : List (List ℕ × List ℕ)) (tstep : ℚ) :
    ℕ → List ℕ → (ℕ → ℕ → ℚ) → (ℕ → ℕ → ℚ)
  | _, [], ds => ds
  | k, g :: rest, ds =>
    loopFill Tobs n_times clusters tstep (k + 1) rest
      (updateCol ds (k + 1) (colOf Tobs n_times tstep (clusters.getD g ([], []))))

/-- The `data_summary` buffer after the loop: zero-initialised
(`np.zeros`), then filled column by column starting at column 1. -/
def loopColumns (Tobs : ℕ → ℕ → ℚ) (n_times : ℕ)
    (clusters : List (List ℕ × List ℕ)) (tstep : ℚ) (good : List ℕ) :
    ℕ → ℕ → ℚ :=
  loopFill Tobs n_times clusters tstep 0 good (fun _ _ => 0)

/-- `data_summary[:, 0] = np.sum(data_summary, axis=1)`: the final buffer,
whose column 0 is the row-wise sum over all `good.length + 1` columns of
the post-loop buffer. -/
def finalSummary (Tobs : ℕ → ℕ → ℚ) (n_times : ℕ)
    (clusters : List (List ℕ × List ℕ)) (tstep : ℚ) (good : List ℕ) :
    ℕ → ℕ → ℚ :=
  let ds := loopColumns Tobs n_times clusters tstep good
  updateCol ds 0 (fun v => ∑ c ∈ Finset.range (good.length + 1), ds c v)

/-- Claim-side count: the number of the cluster's member points `(t, v)` at
vertex `v` (within the time extent) where `T_obs[t, v] > 0`. -/
def posCount (Tobs : ℕ → ℕ → ℚ) (n_times : ℕ) (cl : List ℕ × List ℕ)
    (v : ℕ) : ℕ :=
  ((Finset.range n_times).filter
    (fun t => (v, t) ∈ cl.2.zip cl.1 ∧ 0 < Tobs t v)).card

/-- Claim-side count: member points at vertex `v` with `T_obs[t, v] < 0`. -/
def negCount (Tobs : ℕ → ℕ → ℚ) (n_times : ℕ) (cl : List ℕ × List ℕ)
    (v : ℕ) : ℕ :=
  ((Finset.range n_times).filter
    (fun t => (v, t) ∈ cl.2.zip cl.1 ∧ Tobs t v < 0)).card

end Script

/-! ## Claim theorems -/

/-- C8 counterexample: the script's threshold is NOT the F-quantile at tail
probability `p_threshold = 1e-4` — instantiating the external quantile
function with a strictly monotone stand-in separates the two: the script
uses `1 - p_threshold / 2`, not `1 - p_threshold`. -/
theorem c8_threshold_counterexample :
    Script.f_threshold Script.probePpf ≠
      Script.probePpf (1 - Script.p_threshold) (Script.n_subjects1 - 1)
        (Script.n_subjects2 - 1) := by
  norm_num [Script.f_threshold, Script.probePpf, Script.p_threshold,
    Script.n_subjects1, Script.n_subjects2]

/-- C8 (amended): the script's cluster-forming threshold is the F-quantile
at probability `1 - p_threshold / 2` (tail probability `5e-5`), with
degrees of freedom 6 and 8 derived from the group sizes 7 and 9, and this
value is the threshold passed to `spatio_temporal_cluster_test`. -/
theorem c8_threshold_amended :
    ∀ ppf : ℚ → ℕ → ℕ → ℚ,
      Script.callThreshold ppf = ppf (1 - Script.p_threshold / 2) 6 8 ∧
      Script.p_threshold / 2 = 1 / 20000 ∧
      Script.n_subjects1 - 1 = 6 ∧ Script.n_subjects2 - 1 = 8 := by
  intro ppf
  refine ⟨rfl, ?_, rfl, rfl⟩
  norm_num [Script.p_threshold]

/-- C1: every p-value returned by the Orchestrator is the Monte Carlo
corrected `(1 + count(H0 ≥ |summary|)) / (1 + N)` of some returned cluster,
lies in `[1/(N+1), 1]`, and is never zero. -/
theorem c1_pvalue_formula_and_bounds :
    ∀ (T V : ℕ) (H0 : List ℚ) (l : List (MNE.ObsCluster T V)) (p : ℚ),
      p ∈ (MNE.orchestrate H0 l).2 →
      ∃ c ∈ (MNE.orchestrate H0 l).1,
        p = (1 + ((H0.filter (fun h => decide (|c.summary| ≤ h))).length : ℚ)) /
              (1 + (H0.length : ℚ)) ∧
        1 / (1 + (H0.length : ℚ)) ≤ p ∧ p ≤ 1 ∧ p ≠ 0 := by
  intro T V H0 l p hp
  simp only [MNE.orchestrate, List.mem_map] at hp
  rcases hp with ⟨c, hc, rfl⟩
  refine ⟨c, by simpa [MNE.orchestrate] using hc, rfl, ?_, ?_, ?_⟩
  all_goals {
    have hk : ((H0.filter (fun h => decide (|c.summary| ≤ h))).length : ℚ) ≤
        (H0.length : ℚ) := by
      exact_mod_cast List.length_filter_le _ H0
    have hk0 : (0 : ℚ) ≤
        ((H0.filter (fun h => decide (|c.summary| ≤ h))).length : ℚ) := by
      positivity
    have hN0 : (0 : ℚ) ≤ (H0.length : ℚ) := by positivity
    have hpos : (0 : ℚ) < 1 + (H0.length : ℚ) := by linarith
    simp only [MNE.pValue]
    first
    | exact (div_le_div_iff_of_pos_right hpos).mpr (by linarith)
    | exact (div_le_one hpos).mpr (by linarith)
    | exact div_ne_zero (by linarith) (by linarith)
  }

/-- C1 witness: a concrete instantiation — one observed cluster with
summary 3 against `H0 = [1, 2]` gets p-value `1/3 = (1+0)/(1+2)`. -/
theorem c1_pvalue_witness :
    ((1 / 3 : ℚ) ∈
      (MNE.orchestrate [1, 2]
        [MNE.ObsCluster.mk (∅ : Finset (Fin 1 × Fin 1)) 3]).2) ∧
    ∃ c ∈ (MNE.orchestrate [1, 2]
        [MNE.ObsCluster.mk (∅ : Finset (Fin 1 × Fin 1)) 3]).1,
      (1 / 3 : ℚ) =
        (1 + ((List.filter (fun h => decide (|c.summary| ≤ h))
          [1, 2]).length : ℚ)) / (1 + (([1, 2] : List ℚ).length : ℚ)) ∧
      1 / (1 + (([1, 2] : List ℚ).length : ℚ)) ≤ (1 / 3 : ℚ) ∧
      (1 / 3 : ℚ) ≤ 1 ∧ (1 / 3 : ℚ) ≠ 0 :=
  have hmem : (1 / 3 : ℚ) ∈
      (MNE.orchestrate [1, 2]
        [MNE.ObsCluster.mk (∅ : Finset (Fin 1 × Fin 1)) 3]).2 := by
    have h1 : MNE.pValue [1, 2] (3 : ℚ) = 1 / 3 := by norm_num [MNE.pValue]
    simp only [MNE.orchestrate, List.insertionSort, List.orderedInsert,
      List.map, h1]
    exact List.mem_singleton.mpr rfl
  ⟨hmem, c1_pvalue_formula_and_bounds 1 1 [1, 2]
    [MNE.ObsCluster.mk ∅ 3] (1 / 3) hmem⟩

/-- C6: when no index of the observed statistic array is active (the
threshold exceeds every statistic value in the relevant tail), the pipeline
returns an empty cluster list and an empty p-value list. -/
theorem c6_empty_result :
    ∀ (T V : ℕ) (mode : MNE.TailMode) (S : Fin T → Fin V → ℚ) (τ : ℚ)
      (A : Fin V → Fin V → Bool) (H0 : List ℚ),
      (∀ i : Fin T × Fin V, MNE.tailActive mode τ (S i.1 i.2) = false) →
      MNE.pipeline mode S τ A H0 = ([], []) := by
  intro T V mode S τ A H0 h
  have h1 : MNE.activeList mode S τ = [] := by
    rw [MNE.activeList, List.filter_eq_nil_iff]
    intro i _
    rw [h i]
    exact Bool.false_ne_true
  have h2 : MNE.observedClusters mode S τ A = [] := by
    rw [MNE.observedClusters, MNE.clusterList, h1]
    rfl
  rw [MNE.pipeline, h2]
  rfl

/-- C6 witness: a concrete all-inactive instance (constant statistic 0,
threshold 1, positive tail). -/
theorem c6_empty_result_witness :
    (∀ i : Fin 1 × Fin 1,
      MNE.tailActive .pos 1 ((fun _ _ => (0 : ℚ)) i.1 i.2) = false) ∧
    @MNE.pipeline 1 1 MNE.TailMode.pos (fun _ _ => (0 : ℚ)) 1
        (fun _ _ => false) [] = ([], []) :=
  ⟨by decide, c6_empty_result 1 1 .pos (fun _ _ => 0) 1 (fun _ _ => false)
    [] (by decide)⟩

/-- C2: for every statistic array, threshold, (symmetric) adjacency
structure and tail mode, the ClusterFinder's clusters partition the
active-index set exactly: every active index is in some cluster, clusters
contain only active indices, and distinct clusters are disjoint. -/
theorem c2_clusters_partition_active :
    ∀ (T V : ℕ) (mode : MNE.TailMode) (S : Fin T → Fin V → ℚ) (τ : ℚ)
      (A : Fin V → Fin V → Bool), (∀ u v, A u v = A v u) →
      (∀ x ∈ MNE.activeSet mode S τ,
        ∃ C ∈ MNE.findClusters mode S τ A, x ∈ C) ∧
      (∀ C ∈ MNE.findClusters mode S τ A, ∀ x ∈ C,
        x ∈ MNE.activeSet mode S τ) ∧
      (∀ C ∈ MNE.findClusters mode S τ A, ∀ D ∈ MNE.findClusters mode S τ A,
        C ≠ D → ∀ x ∈ C, x ∉ D) := by
  intro T V mode S τ A hA
  have hsym := MNE.clusterRel_symm mode S A hA
  refine ⟨?_, ?_, ?_⟩
  · intro x hx
    exact CC.clustersOf_cover _ _ hx
  · intro C hC x hx
    exact CC.clustersOf_subset _ _ hC hx
  · intro C hC D hD hne x hx
    exact CC.clustersOf_disjoint _ _ hsym hC hD hne hx

/-- C2 witness: a 1×2 grid with both points active and adjacent. -/
theorem c2_clusters_partition_witness :
    (∀ u v : Fin 2, (fun a b : Fin 2 => a != b) u v = (fun a b => a != b) v u) ∧
    ((∀ x ∈ MNE.activeSet .pos (fun (_ : Fin 1) (_ : Fin 2) => (1 : ℚ)) 0,
        ∃ C ∈ MNE.findClusters .pos (fun _ _ => 1) 0 (fun a b => a != b),
          x ∈ C) ∧
      (∀ C ∈ MNE.findClusters .pos (fun (_ : Fin 1) (_ : Fin 2) => (1 : ℚ)) 0
          (fun a b => a != b), ∀ x ∈ C,
        x ∈ MNE.activeSet .pos (fun _ _ => 1) 0) ∧
      (∀ C ∈ MNE.findClusters .pos (fun (_ : Fin 1) (_ : Fin 2) => (1 : ℚ)) 0
          (fun a b => a != b),
        ∀ D ∈ MNE.findClusters .pos (fun _ _ => 1) 0 (fun a b => a != b),
          C ≠ D → ∀ x ∈ C, x ∉ D)) :=
  ⟨by decide, c2_clusters_partition_active 1 2 .pos (fun _ _ => 1) 0
    (fun a b => a != b) (by decide)⟩

/-- C4: raising the threshold shrinks the active set (for every tail mode),
and every cluster found at the higher threshold is contained in a cluster
found at the lower threshold. -/
theorem c4_threshold_monotone :
    ∀ (T V : ℕ) (mode : MNE.TailMode) (S : Fin T → Fin V → ℚ)
      (A : Fin V → Fin V → Bool) (τ₁ τ₂ : ℚ), τ₁ ≤ τ₂ →
      MNE.activeSet mode S τ₂ ⊆ MNE.activeSet mode S τ₁ ∧
      (∀ C ∈ MNE.findClusters mode S τ₂ A,
        ∃ D ∈ MNE.findClusters mode S τ₁ A, C ⊆ D) := by
  intro T V mode S A τ₁ τ₂ hτ
  have hsub : MNE.activeSet mode S τ₂ ⊆ MNE.activeSet mode S τ₁ := by
    intro i hi
    rcases Finset.mem_filter.mp hi with ⟨hu, hact⟩
    refine Finset.mem_filter.mpr ⟨hu, ?_⟩
    cases mode with
    | pos =>
      simp only [MNE.tailActive, decide_eq_true_eq] at hact ⊢
      linarith
    | neg =>
      simp only [MNE.tailActive, decide_eq_true_eq] at hact ⊢
      linarith
    | twoTailed =>
      simp only [MNE.tailActive, decide_eq_true_eq] at hact ⊢
      linarith
  refine ⟨hsub, ?_⟩
  intro C hC
  rcases Finset.mem_image.mp hC with ⟨i, hi, rfl⟩
  refine ⟨CC.component (MNE.clusterRel mode S A) (MNE.activeSet mode S τ₁) i,
    Finset.mem_image_of_mem _ (hsub hi), ?_⟩
  exact CC.iterate_mono _ hsub (Finset.Subset.refl _) _

/-- C4 witness: thresholds 0 ≤ 2 on a concrete 1×2 grid. -/
theorem c4_threshold_monotone_witness :
    ((0 : ℚ) ≤ 2) ∧
    (MNE.activeSet .pos (fun (_ : Fin 1) (v : Fin 2) => if v = 0 then 3 else (1 : ℚ)) 2 ⊆
        MNE.activeSet .pos (fun _ v => if v = 0 then 3 else 1) 0 ∧
      (∀ C ∈ MNE.findClusters .pos
          (fun (_ : Fin 1) (v : Fin 2) => if v = 0 then 3 else (1 : ℚ)) 2
          (fun a b => a != b),
        ∃ D ∈ MNE.findClusters .pos (fun _ v => if v = 0 then 3 else 1) 0
          (fun a b => a != b), C ⊆ D)) :=
  ⟨by norm_num, c4_threshold_monotone 1 2 .pos
    (fun _ v => if v = 0 then 3 else 1) (fun a b => a != b) 0 2
    (by norm_num)⟩

/-- Two lists of observed clusters that are permutations of each other,
both sorted by descending absolute summary, with pairwise-distinct absolute
summaries, are equal. -/
theorem sorted_perm_nodup_key_eq {T V : ℕ} :
    ∀ (l₁ l₂ : List (MNE.ObsCluster T V)), l₁.Perm l₂ →
      List.Sorted MNE.descOrder l₁ → List.Sorted MNE.descOrder l₂ →
      (l₁.map (fun c => |c.summary|)).Nodup → l₁ = l₂ := by
  intro l₁
  induction l₁ with
  | nil =>
    intro l₂ hp _ _ _
    exact (hp.symm.eq_nil).symm
  | cons a t₁ ih =>
    intro l₂ hp hs₁ hs₂ hnd
    cases l₂ with
    | nil => exact absurd hp.eq_nil (by simp)
    | cons b t₂ =>
      have hamem : a ∈ b :: t₂ := hp.mem_iff.mp (List.mem_cons_self a t₁)
      have hbmem : b ∈ a :: t₁ := hp.mem_iff.mpr (List.mem_cons_self b t₂)
      have hab : a = b := by
        by_contra hne
        have ha2 : a ∈ t₂ := by
          rcases List.mem_cons.mp hamem with h | h
          · exact absurd h hne
          · exact h
        have hb1 : b ∈ t₁ := by
          rcases List.mem_cons.mp hbmem with h | h
          · exact absurd h.symm hne
          · exact h
        have h1 : |a.summary| ≤ |b.summary| :=
          List.rel_of_sorted_cons hs₂ a ha2
        have h2 : |b.summary| ≤ |a.summary| :=
          List.rel_of_sorted_cons hs₁ b hb1
        have hkeq : |a.summary| = |b.summary| := le_antisymm h1 h2
        have hmem : |a.summary| ∈ t₁.map (fun c => |c.summary|) := by
          rw [hkeq]
          exact List.mem_map.mpr ⟨b, hb1, rfl⟩
        rw [List.map_cons] at hnd
        exact (List.nodup_cons.mp hnd).1 hmem
      subst hab
      have htl : t₁ = t₂ := by
        refine ih t₂ hp.cons_inv (List.sorted_cons.mp hs₁).2
          (List.sorted_cons.mp hs₂).2 ?_
        rw [List.map_cons] at hnd
        exact (List.nodup_cons.mp hnd).2
      rw [htl]

/-- C5: the Orchestrator's output is input-traversal-order-independent
(given distinct absolute summaries), sorted by descending absolute summary,
p-values index-aligned with the cluster list, and a permutation of the
observed clusters. -/
theorem c5_stable_order_alignment :
    ∀ (T V : ℕ) (H0 : List ℚ) (l₁ l₂ : List (MNE.ObsCluster T V)),
      l₁.Perm l₂ → (l₁.map (fun c => |c.summary|)).Nodup →
      MNE.orchestrate H0 l₁ = MNE.orchestrate H0 l₂ ∧
      List.Sorted MNE.descOrder (MNE.orchestrate H0 l₁).1 ∧
      (MNE.orchestrate H0 l₁).2 =
        (MNE.orchestrate H0 l₁).1.map (fun c => MNE.pValue H0 c.summary) ∧
      ((MNE.orchestrate H0 l₁).1).Perm l₁ := by
  intro T V H0 l₁ l₂ hp hnd
  have hs₁ : List.Sorted MNE.descOrder (l₁.insertionSort MNE.descOrder) :=
    List.sorted_insertionSort MNE.descOrder l₁
  have hs₂ : List.Sorted MNE.descOrder (l₂.insertionSort MNE.descOrder) :=
    List.sorted_insertionSort MNE.descOrder l₂
  have hp1 : (l₁.insertionSort MNE.descOrder).Perm l₁ :=
    List.perm_insertionSort _ _
  have hp2 : (l₂.insertionSort MNE.descOrder).Perm l₂ :=
    List.perm_insertionSort _ _
  have hperm : (l₁.insertionSort MNE.descOrder).Perm
      (l₂.insertionSort MNE.descOrder) := hp1.trans (hp.trans hp2.symm)
  have hnd' : ((l₁.insertionSort MNE.descOrder).map
      (fun c => |c.summary|)).Nodup := by
    have h := hp1.map (fun c : MNE.ObsCluster T V => |c.summary|)
    exact h.nodup_iff.mpr hnd
  have heq : l₁.insertionSort MNE.descOrder = l₂.insertionSort MNE.descOrder :=
    sorted_perm_nodup_key_eq _ _ hperm hs₁ hs₂ hnd'
  have hfst : MNE.orchestrate H0 l₁ = MNE.orchestrate H0 l₂ := by
    unfold MNE.orchestrate
    rw [heq]
  exact ⟨hfst, hs₁, rfl, hp1⟩

/-- C5 witness: two concrete input orders of the same two clusters yield
the same sorted, aligned output. -/
theorem c5_stable_order_witness :
    (([MNE.ObsCluster.mk (∅ : Finset (Fin 1 × Fin 1)) 1,
        MNE.ObsCluster.mk ∅ 2] : List (MNE.ObsCluster 1 1)).Perm
      [MNE.ObsCluster.mk ∅ 2, MNE.ObsCluster.mk ∅ 1]) ∧
    (([MNE.ObsCluster.mk (∅ : Finset (Fin 1 × Fin 1)) 1,
        MNE.ObsCluster.mk ∅ 2].map (fun c => |c.summary|)).Nodup) ∧
    (MNE.orchestrate [] [MNE.ObsCluster.mk (∅ : Finset (Fin 1 × Fin 1)) 1,
        MNE.ObsCluster.mk ∅ 2] =
      MNE.orchestrate [] [MNE.ObsCluster.mk ∅ 2, MNE.ObsCluster.mk ∅ 1] ∧
      List.Sorted MNE.descOrder
        (MNE.orchestrate [] [MNE.ObsCluster.mk (∅ : Finset (Fin 1 × Fin 1)) 1,
          MNE.ObsCluster.mk ∅ 2]).1 ∧
      (MNE.orchestrate [] [MNE.ObsCluster.mk (∅ : Finset (Fin 1 × Fin 1)) 1,
          MNE.ObsCluster.mk ∅ 2]).2 =
        (MNE.orchestrate [] [MNE.ObsCluster.mk (∅ : Finset (Fin 1 × Fin 1)) 1,
          MNE.ObsCluster.mk ∅ 2]).1.map
          (fun c => MNE.pValue [] c.summary) ∧
      ((MNE.orchestrate [] [MNE.ObsCluster.mk (∅ : Finset (Fin 1 × Fin 1)) 1,
          MNE.ObsCluster.mk ∅ 2]).1).Perm
        [MNE.ObsCluster.mk ∅ 1, MNE.ObsCluster.mk ∅ 2]) :=
  ⟨by decide, by decide,
    c5_stable_order_alignment 1 1 []
      [MNE.ObsCluster.mk ∅ 1, MNE.ObsCluster.mk ∅ 2]
      [MNE.ObsCluster.mk ∅ 2, MNE.ObsCluster.mk ∅ 1]
      (by decide) (by decide)⟩

theorem mem_activeSet_pos {T V : ℕ} {S : Fin T → Fin V → ℚ} {τ : ℚ}
    {i : Fin T × Fin V} :
    i ∈ MNE.activeSet .pos S τ ↔ τ < S i.1 i.2 := by
  simp [MNE.activeSet, MNE.tailActive]

theorem mem_activeSet_neg {T V : ℕ} {S : Fin T → Fin V → ℚ} {τ : ℚ}
    {i : Fin T × Fin V} :
    i ∈ MNE.activeSet .neg S τ ↔ S i.1 i.2 < -τ := by
  simp [MNE.activeSet, MNE.tailActive]

theorem mem_activeSet_two {T V : ℕ} {S : Fin T → Fin V → ℚ} {τ : ℚ}
    {i : Fin T × Fin V} :
    i ∈ MNE.activeSet .twoTailed S τ ↔ τ < |S i.1 i.2| := by
  simp [MNE.activeSet, MNE.tailActive]

/-- The two-tailed active set is the union of the one-tailed active sets
(pointwise, `τ < |x|` iff `τ < x` or `x < -τ`). -/
theorem activeSet_two_union {T V : ℕ} (S : Fin T → Fin V → ℚ) (τ : ℚ) :
    MNE.activeSet .twoTailed S τ =
      MNE.activeSet .pos S τ ∪ MNE.activeSet .neg S τ := by
  ext i
  rw [Finset.mem_union, mem_activeSet_two, mem_activeSet_pos,
    mem_activeSet_neg, lt_abs]
  constructor
  · rintro (h | h)
    · exact Or.inl h
    · exact Or.inr (lt_neg.mp h)
  · rintro (h | h)
    · exact Or.inl h
    · exact Or.inr (lt_neg.mpr h)

/-- On the positive side, the two-tailed component computation agrees with
the positive-tail one: side-respecting edges never leave the positive side
when the threshold is nonnegative. -/
theorem component_two_pos {T V : ℕ} (S : Fin T → Fin V → ℚ) (τ : ℚ)
    (A : Fin V → Fin V → Bool) (hτ : 0 ≤ τ) {i : Fin T × Fin V}
    (hi : i ∈ MNE.activeSet .pos S τ) :
    CC.component (MNE.clusterRel .twoTailed S A)
        (MNE.activeSet .twoTailed S τ) i =
      CC.component (MNE.clusterRel .pos S A) (MNE.activeSet .pos S τ) i := by
  apply CC.component_restrict
  · intro x hx
    rw [mem_activeSet_two]
    exact lt_of_lt_of_le (mem_activeSet_pos.mp hx) (le_abs_self _)
  · intro y hy x hx hr
    simp only [MNE.clusterRel, Bool.and_eq_true] at hr
    rcases hr with ⟨hgrid, hside⟩
    have hy0 : (0 : ℚ) < S y.1 y.2 :=
      lt_of_le_of_lt hτ (mem_activeSet_pos.mp hy)
    have hx0 : (0 : ℚ) < S x.1 x.2 := by
      simp only [MNE.sideOk] at hside
      have h1 : decide ((0 : ℚ) < S y.1 y.2) = true := decide_eq_true hy0
      rw [h1] at hside
      exact of_decide_eq_true (beq_iff_eq.mp hside).symm
    have hxpos : x ∈ MNE.activeSet .pos S τ := by
      rw [mem_activeSet_pos]
      have := mem_activeSet_two.mp hx
      rwa [abs_of_pos hx0] at this
    refine ⟨hxpos, ?_⟩
    simp only [MNE.clusterRel, MNE.sideOk, hgrid, Bool.and_true]
  · intro y hy x hx hr
    have hgrid : MNE.gridAdj A y x = true := by
      simp only [MNE.clusterRel, Bool.and_eq_true] at hr
      exact hr.1
    have hy0 : (0 : ℚ) < S y.1 y.2 :=
      lt_of_le_of_lt hτ (mem_activeSet_pos.mp hy)
    have hx0 : (0 : ℚ) < S x.1 x.2 :=
      lt_of_le_of_lt hτ (mem_activeSet_pos.mp hx)
    simp only [MNE.clusterRel, MNE.sideOk, hgrid, Bool.true_and,
      decide_eq_true hy0, decide_eq_true hx0]
    rfl
  · exact hi

/-- On the negative side, the two-tailed component computation agrees with
the negative-tail one. -/
theorem component_two_neg {T V : ℕ} (S : Fin T → Fin V → ℚ) (τ : ℚ)
    (A : Fin V → Fin V → Bool) (hτ : 0 ≤ τ) {i : Fin T × Fin V}
    (hi : i ∈ MNE.activeSet .neg S τ) :
    CC.component (MNE.clusterRel .twoTailed S A)
        (MNE.activeSet .twoTailed S τ) i =
      CC.component (MNE.clusterRel .neg S A) (MNE.activeSet .neg S τ) i := by
  apply CC.component_restrict
  · intro x hx
    rw [mem_activeSet_two]
    have h := mem_activeSet_neg.mp hx
    calc τ < -(S x.1 x.2) := lt_neg.mpr h
    _ ≤ |S x.1 x.2| := neg_le_abs _
  · intro y hy x hx hr
    simp only [MNE.clusterRel, Bool.and_eq_true] at hr
    rcases hr with ⟨hgrid, hside⟩
    have hy0 : ¬ (0 : ℚ) < S y.1 y.2 := by
      have h := mem_activeSet_neg.mp hy
      have : S y.1 y.2 < 0 := lt_of_lt_of_le h (by linarith)
      linarith
    have hx0 : ¬ (0 : ℚ) < S x.1 x.2 := by
      simp only [MNE.sideOk] at hside
      have h1 : decide ((0 : ℚ) < S y.1 y.2) = false := decide_eq_false hy0
      rw [h1] at hside
      have h2 : decide ((0 : ℚ) < S x.1 x.2) = false :=
        (beq_iff_eq.mp hside).symm
      exact of_decide_eq_false h2
    have hxneg : x ∈ MNE.activeSet .neg S τ := by
      rw [mem_activeSet_neg]
      have h := mem_activeSet_two.mp hx
      rw [abs_of_nonpos (le_of_not_lt hx0)] at h
      linarith [lt_neg.mp h]
    refine ⟨hxneg, ?_⟩
    simp only [MNE.clusterRel, MNE.sideOk, hgrid, Bool.and_true]
  · intro y hy x hx hr
    have hgrid : MNE.gridAdj A y x = true := by
      simp only [MNE.clusterRel, Bool.and_eq_true] at hr
      exact hr.1
    have hy0 : ¬ (0 : ℚ) < S y.1 y.2 := by
      have h := mem_activeSet_neg.mp hy
      have h2 : S y.1 y.2 < 0 := lt_of_lt_of_le h (by linarith)
      linarith
    have hx0 : ¬ (0 : ℚ) < S x.1 x.2 := by
      have h := mem_activeSet_neg.mp hx
      have h2 : S x.1 x.2 < 0 := lt_of_lt_of_le h (by linarith)
      linarith
    simp only [MNE.clusterRel, MNE.sideOk, hgrid, Bool.true_and,
      decide_eq_false hy0, decide_eq_false hx0]
    rfl
  · exact hi

/-- Every member of a two-tailed component has the same statistic sign side
as its seed. -/
theorem component_two_side {T V : ℕ} (S : Fin T → Fin V → ℚ) (τ : ℚ)
    (A : Fin V → Fin V → Bool) (i : Fin T × Fin V) :
    ∀ x ∈ CC.component (MNE.clusterRel .twoTailed S A)
        (MNE.activeSet .twoTailed S τ) i,
      decide (0 < S x.1 x.2) = decide (0 < S i.1 i.2) := by
  intro x hx
  have hsub := CC.component_subset_closed
    (MNE.clusterRel .twoTailed S A) (MNE.activeSet .twoTailed S τ)
    (Finset.mem_filter.mpr ⟨Finset.mem_univ i, rfl⟩)
    (D := Finset.univ.filter
      (fun x => decide (0 < S x.1 x.2) = decide (0 < S i.1 i.2)))
    ?_
  · exact (Finset.mem_filter.mp (hsub hx)).2
  · intro a ha b hb hab
    simp only [MNE.clusterRel, Bool.and_eq_true] at hab
    rcases hab with ⟨h_, hside⟩
    simp only [MNE.sideOk] at hside
    refine Finset.mem_filter.mpr ⟨Finset.mem_univ b, ?_⟩
    rw [← beq_iff_eq.mp hside]
    exact (Finset.mem_filter.mp ha).2

/-- C3 counterexample: with a negative threshold `τ = -2`, a point can
exceed both tails; the two-tailed clusters (which separate sign sides) are
then NOT the union of the positive-tail and negative-tail clusters: on a
1×2 grid with statistic `(1, -1)` and adjacent vertices, two-tailed mode
yields two singleton clusters while each one-tailed mode yields the single
merged cluster. -/
theorem c3_two_tailed_union_counterexample :
    MNE.findClusters .twoTailed CE.ceS (-2) CE.ceA ≠
      MNE.findClusters .pos CE.ceS (-2) CE.ceA ∪
        MNE.findClusters .neg CE.ceS (-2) CE.ceA := by
  decide

/-- C3 (amended): for every nonnegative threshold τ, every statistic array
and every adjacency structure, the two-tailed clusters are exactly the
union of the positive-tail clusters and the negative-tail clusters; the
negative-tail clusters equal the positive-tail clusters of `-S`; and no
two-tailed cluster contains both a positive-exceeding and a
negative-exceeding index. -/
theorem c3_two_tailed_union_amended :
    ∀ (T V : ℕ) (S : Fin T → Fin V → ℚ) (τ : ℚ) (A : Fin V → Fin V → Bool),
      0 ≤ τ →
      MNE.findClusters .twoTailed S τ A =
        MNE.findClusters .pos S τ A ∪ MNE.findClusters .neg S τ A ∧
      MNE.findClusters .neg S τ A =
        MNE.findClusters .pos (fun t v => -(S t v)) τ A ∧
      (∀ C ∈ MNE.findClusters .twoTailed S τ A,
        ¬((∃ i ∈ C, τ < S i.1 i.2) ∧ (∃ j ∈ C, S j.1 j.2 < -τ))) := by
  intro T V S τ A hτ
  refine ⟨?_, ?_, ?_⟩
  · show CC.clustersOf _ _ = CC.clustersOf _ _ ∪ CC.clustersOf _ _
    unfold CC.clustersOf
    have hsplit :
        Finset.image (CC.component (MNE.clusterRel .twoTailed S A)
          (MNE.activeSet .twoTailed S τ)) (MNE.activeSet .twoTailed S τ) =
        Finset.image (CC.component (MNE.clusterRel .twoTailed S A)
          (MNE.activeSet .twoTailed S τ))
          (MNE.activeSet .pos S τ ∪ MNE.activeSet .neg S τ) :=
      congrArg _ (activeSet_two_union S τ)
    rw [hsplit, Finset.image_union]
    congr 1
    · refine Finset.image_congr ?_
      intro i hi
      exact component_two_pos S τ A hτ (Finset.mem_coe.mp hi)
    · refine Finset.image_congr ?_
      intro i hi
      exact component_two_neg S τ A hτ (Finset.mem_coe.mp hi)
  · have hS : MNE.activeSet .neg S τ =
        MNE.activeSet .pos (fun t v => -(S t v)) τ := by
      ext i
      rw [mem_activeSet_neg, mem_activeSet_pos]
      exact lt_neg.symm
    show CC.clustersOf (MNE.clusterRel .neg S A) (MNE.activeSet .neg S τ) =
      CC.clustersOf (MNE.clusterRel .pos (fun t v => -(S t v)) A)
        (MNE.activeSet .pos (fun t v => -(S t v)) τ)
    rw [hS]
    rfl
  · intro C hC hcross
    rcases hcross with ⟨⟨i, hiC, hipos⟩, ⟨j, hjC, hjneg⟩⟩
    rcases Finset.mem_image.mp hC with ⟨k, hk, rfl⟩
    have hi := component_two_side S τ A k i hiC
    have hj := component_two_side S τ A k j hjC
    have hi0 : (0 : ℚ) < S i.1 i.2 := lt_of_le_of_lt hτ hipos
    have hj0 : S j.1 j.2 < 0 := lt_of_lt_of_le hjneg (by linarith)
    rw [decide_eq_true hi0] at hi
    rw [decide_eq_false (by linarith : ¬ (0:ℚ) < S j.1 j.2)] at hj
    rw [← hj] at hi
    exact Bool.noConfusion hi

/-- C3 witness for the amended theorem: threshold 1 on the same 1×2 grid. -/
theorem c3_two_tailed_union_witness :
    ((0 : ℚ) ≤ 1) ∧
    (MNE.findClusters .twoTailed CE.ceS 1 CE.ceA =
        MNE.findClusters .pos CE.ceS 1 CE.ceA ∪
          MNE.findClusters .neg CE.ceS 1 CE.ceA ∧
      MNE.findClusters .neg CE.ceS 1 CE.ceA =
        MNE.findClusters .pos (fun t v => -(CE.ceS t v)) 1 CE.ceA ∧
      (∀ C ∈ MNE.findClusters .twoTailed CE.ceS 1 CE.ceA,
        ¬((∃ i ∈ C, 1 < CE.ceS i.1 i.2) ∧
          (∃ j ∈ C, CE.ceS j.1 j.2 < -1)))) :=
  ⟨by norm_num, c3_two_tailed_union_amended 1 2 CE.ceS 1 CE.ceA (by norm_num)⟩

/-- Summing an indicator-selected constant over a duplicate-free list
containing the selected element yields the constant. -/
theorem sum_map_single :
    ∀ (l : List ℕ) (k c : ℕ), l.Nodup → k ∈ l →
      (l.map (fun w => if k = w then c else 0)).sum = c := by
  intro l
  induction l with
  | nil => intro k c _ hk; exact absurd hk (List.not_mem_nil k)
  | cons w rest ih =>
    intro k c hnd hk
    rcases List.mem_cons.mp hk with rfl | hk'
    · simp only [List.map_cons, List.sum_cons, if_pos rfl]
      have hzero : (rest.map (fun w => if k = w then c else 0)).sum = 0 := by
        apply List.sum_eq_zero
        intro x hx
        rcases List.mem_map.mp hx with ⟨w', hw', rfl⟩
        have hne : k ≠ w' := by
          rintro rfl
          exact (List.nodup_cons.mp hnd).1 hw'
        simp [hne]
      rw [hzero]
      simp
    · have hkw : k ≠ w := by
        rintro rfl
        exact (List.nodup_cons.mp hnd).1 hk'
      simp only [List.map_cons, List.sum_cons, if_neg hkw, Nat.zero_add]
      exact ih k c (List.nodup_cons.mp hnd).2 hk'

/-- The pre-assigned per-worker permutation-index lists jointly cover the
permutation indices `0, …, N-1` exactly once. -/
theorem workerIdx_perm (N jobs : ℕ) (hjobs : 0 < jobs) :
    ((List.range jobs).flatMap (fun w => MNE.workerIdx N jobs w)).Perm
      (List.range N) := by
  rw [List.perm_iff_count]
  intro a
  rw [List.count_flatMap]
  have hcnt : ∀ w ∈ List.range jobs,
      (List.count a ∘ fun w => MNE.workerIdx N jobs w) w =
        (fun w => if a % jobs = w then List.count a (List.range N) else 0)
          w := by
    intro w hw
    simp only [Function.comp, MNE.workerIdx]
    by_cases h : a % jobs = w
    · rw [if_pos h, List.count_filter]
      simp [h]
    · rw [if_neg h]
      rw [List.count_eq_zero]
      intro hmem
      rcases List.mem_filter.mp hmem with ⟨_, hp⟩
      exact h (by simpa using hp)
  rw [List.map_congr_left hcnt]
  exact sum_map_single (List.range jobs) (a % jobs)
    (List.count a (List.range N)) (List.nodup_range jobs)
    (List.mem_range.mpr (Nat.mod_lt a hjobs))

/-- The collector's H0 is, as a multiset, the same as a sequential run over
all permutation indices, for any parallelism degree. -/
theorem engineH0_perm (N jobs : ℕ) (f : ℕ → ℚ) (hjobs : 0 < jobs) :
    (MNE.engineH0 N jobs f).Perm ((List.range N).map f) := by
  unfold MNE.engineH0
  have hmap : (List.range jobs).flatMap
      (fun w => (MNE.workerIdx N jobs w).map f) =
      ((List.range jobs).flatMap (fun w => MNE.workerIdx N jobs w)).map f :=
    (List.map_flatMap f _ _).symm
  rw [hmap]
  exact (workerIdx_perm N jobs hjobs).map f

/-- p-values only depend on H0 as a multiset. -/
theorem pValue_perm {H0 H0' : List ℚ} (h : H0.Perm H0') (c : ℚ) :
    MNE.pValue H0 c = MNE.pValue H0' c := by
  unfold MNE.pValue
  rw [(h.filter (fun x => decide (|c| ≤ x))).length_eq, h.length_eq]

/-- C7: the full pipeline is a deterministic function of its inputs — two
runs with the same seed and parallelism degree give identical cluster lists
and identical p-values; moreover (spec §4.3) the result does not depend on
the parallelism degree at all, since every permutation index is consumed
exactly once by exactly one worker. -/
theorem c7_reproducibility :
    ∀ (T V : ℕ) (mode : MNE.TailMode)
      (statOf : List ℕ → Fin T → Fin V → ℚ)
      (nTotal N seed jobs jobs' : ℕ) (τ : ℚ) (A : Fin V → Fin V → Bool),
      0 < jobs → 0 < jobs' →
      MNE.fullRun mode statOf nTotal N seed jobs τ A =
        MNE.fullRun mode statOf nTotal N seed jobs τ A ∧
      MNE.fullRun mode statOf nTotal N seed jobs τ A =
        MNE.fullRun mode statOf nTotal N seed jobs' τ A := by
  intro T V mode statOf nTotal N seed jobs jobs' τ A hj hj'
  refine ⟨rfl, ?_⟩
  unfold MNE.fullRun MNE.pipeline MNE.orchestrate
  have hperm : (MNE.engineH0 N jobs (fun p =>
      MNE.maxClusterStat mode (statOf (MNE.permLabels nTotal seed p)) τ A)).Perm
      (MNE.engineH0 N jobs' (fun p =>
        MNE.maxClusterStat mode (statOf (MNE.permLabels nTotal seed p)) τ A)) :=
    (engineH0_perm N jobs _ hj).trans (engineH0_perm N jobs' _ hj').symm
  have hpv : ∀ c : MNE.ObsCluster T V,
      MNE.pValue (MNE.engineH0 N jobs (fun p =>
        MNE.maxClusterStat mode (statOf (MNE.permLabels nTotal seed p)) τ A))
        c.summary =
      MNE.pValue (MNE.engineH0 N jobs' (fun p =>
        MNE.maxClusterStat mode (statOf (MNE.permLabels nTotal seed p)) τ A))
        c.summary :=
    fun c => pValue_perm hperm c.summary
  simp only [List.map_congr_left (fun c _ => hpv c)]

/-- C7 witness: a concrete run with seed 0 and parallelism degree 2 (as in
the example script) versus degree 1. -/
theorem c7_reproducibility_witness :
    (0 < 2 ∧ 0 < 1) ∧
    (@MNE.fullRun 1 1 MNE.TailMode.pos (fun _ _ _ => (1 : ℚ)) 2 2 0 2 0
        (fun _ _ => false) =
      @MNE.fullRun 1 1 MNE.TailMode.pos (fun _ _ _ => (1 : ℚ)) 2 2 0 2 0
        (fun _ _ => false) ∧
    @MNE.fullRun 1 1 MNE.TailMode.pos (fun _ _ _ => (1 : ℚ)) 2 2 0 2 0
        (fun _ _ => false) =
      @MNE.fullRun 1 1 MNE.TailMode.pos (fun _ _ _ => (1 : ℚ)) 2 2 0 1 0
        (fun _ _ => false)) :=
  ⟨⟨by decide, by decide⟩,
    c7_reproducibility 1 1 .pos (fun _ _ _ => 1) 2 2 0 2 1 0
      (fun _ _ => false) (by decide) (by decide)⟩

/-- C9: every cluster returned by the pipeline, in the paired index-array
form the script consumes, has equal-length time- and space-index arrays,
all indices in bounds for a `(n_times, n_vertices)` statistic array, and
each aligned pair `(t_inds[j], v_inds[j])` is a member point of the
cluster — so the script's fancy indexing `T_obs[t_inds, v_inds]` and
`data[v_inds, t_inds]` is well-defined. -/
theorem c9_cluster_pairs_wellformed :
    ∀ (T V : ℕ) (mode : MNE.TailMode) (S : Fin T → Fin V → ℚ) (τ : ℚ)
      (A : Fin V → Fin V → Bool) (H0 : List ℚ),
      ∀ c ∈ (MNE.pipeline mode S τ A H0).1,
        (MNE.clusterPairs c.members).1.length =
          (MNE.clusterPairs c.members).2.length ∧
        (∀ t ∈ (MNE.clusterPairs c.members).1, t < T) ∧
        (∀ v ∈ (MNE.clusterPairs c.members).2, v < V) ∧
        (∀ j (hj : j < (MNE.clusterPairs c.members).1.length)
          (hj' : j < (MNE.clusterPairs c.members).2.length),
          ∃ i ∈ c.members,
            (MNE.clusterPairs c.members).1.get ⟨j, hj⟩ = i.1.val ∧
            (MNE.clusterPairs c.members).2.get ⟨j, hj'⟩ = i.2.val) := by
  intro T V mode S τ A H0 c hc
  refine ⟨by simp [MNE.clusterPairs], ?_, ?_, ?_⟩
  · intro t ht
    rcases List.mem_map.mp ht with ⟨i, _, rfl⟩
    exact i.1.isLt
  · intro v hv
    rcases List.mem_map.mp hv with ⟨i, _, rfl⟩
    exact i.2.isLt
  · intro j hj hj'
    have hjm : j < (MNE.memberList c.members).length := by
      simpa [MNE.clusterPairs] using hj
    refine ⟨(MNE.memberList c.members).get ⟨j, hjm⟩, ?_, ?_, ?_⟩
    · have hmem : (MNE.memberList c.members).get ⟨j, hjm⟩ ∈
          MNE.memberList c.members := List.get_mem _ _ hjm
      exact of_decide_eq_true (List.mem_filter.mp hmem).2
    · exact List.get_map _
    · exact List.get_map _

/-- C9 witness: the single cluster of a concrete 1×1 all-active run is
well-formed in the paired index-array representation. -/
theorem c9_cluster_pairs_witness :
    (MNE.ObsCluster.mk {((0 : Fin 1), (0 : Fin 1))} 1 ∈
      (@MNE.pipeline 1 1 MNE.TailMode.pos (fun _ _ => (1 : ℚ)) 0
        (fun _ _ => false) []).1) ∧
    ((MNE.clusterPairs
        (MNE.ObsCluster.mk {((0 : Fin 1), (0 : Fin 1))} (1 : ℚ)).members).1.length =
      (MNE.clusterPairs
        (MNE.ObsCluster.mk {((0 : Fin 1), (0 : Fin 1))} (1 : ℚ)).members).2.length ∧
    (∀ t ∈ (MNE.clusterPairs
        (MNE.ObsCluster.mk {((0 : Fin 1), (0 : Fin 1))} (1 : ℚ)).members).1,
      t < 1) ∧
    (∀ v ∈ (MNE.clusterPairs
        (MNE.ObsCluster.mk {((0 : Fin 1), (0 : Fin 1))} (1 : ℚ)).members).2,
      v < 1) ∧
    (∀ j (hj : j < (MNE.clusterPairs
        (MNE.ObsCluster.mk {((0 : Fin 1), (0 : Fin 1))} (1 : ℚ)).members).1.length)
      (hj' : j < (MNE.clusterPairs
        (MNE.ObsCluster.mk {((0 : Fin 1), (0 : Fin 1))} (1 : ℚ)).members).2.length),
      ∃ i ∈ (MNE.ObsCluster.mk {((0 : Fin 1), (0 : Fin 1))} (1 : ℚ)).members,
        (MNE.clusterPairs
          (MNE.ObsCluster.mk {((0 : Fin 1), (0 : Fin 1))} (1 : ℚ)).members).1.get
            ⟨j, hj⟩ = i.1.val ∧
        (MNE.clusterPairs
          (MNE.ObsCluster.mk {((0 : Fin 1), (0 : Fin 1))} (1 : ℚ)).members).2.get
            ⟨j, hj'⟩ = i.2.val)) :=
  have hmem : MNE.ObsCluster.mk {((0 : Fin 1), (0 : Fin 1))} 1 ∈
      (@MNE.pipeline 1 1 MNE.TailMode.pos (fun _ _ => (1 : ℚ)) 0
        (fun _ _ => false) []).1 := by
    have hcl : MNE.clusterList .pos (fun _ _ => (1:ℚ)) 0 (fun _ _ => false) =
        [({((0 : Fin 1), (0 : Fin 1))} : Finset (Fin 1 × Fin 1))] := by
      decide
    have hsum : MNE.clusterSum (fun _ _ => (1:ℚ))
        ({((0 : Fin 1), (0 : Fin 1))} : Finset (Fin 1 × Fin 1)) = 1 := by
      simp [MNE.clusterSum]
    show MNE.ObsCluster.mk {((0 : Fin 1), (0 : Fin 1))} 1 ∈
      List.insertionSort MNE.descOrder
        (MNE.observedClusters .pos (fun _ _ => (1 : ℚ)) 0 (fun _ _ => false))
    rw [MNE.observedClusters, hcl]
    simp only [List.map_cons, List.map_nil, hsum]
    simp [List.insertionSort, List.orderedInsert]
  ⟨hmem, c9_cluster_pairs_wellformed 1 1 .pos (fun _ _ => 1) 0
    (fun _ _ => false) [] (MNE.ObsCluster.mk {((0 : Fin 1), (0 : Fin 1))} 1)
    hmem⟩

/-- The fancy-index assignment writes `T_obs[t, v]` at exactly the paired
cells, in any order and from any initial buffer: the value written to a
cell depends only on the cell. -/
theorem assign_fold (Tobs : ℕ → ℕ → ℚ) :
    ∀ (L : List (ℕ × ℕ)) (d : ℕ → ℕ → ℚ) (v t : ℕ),
      (L.foldl
        (fun d p => fun v' t' =>
          if v' = p.1 ∧ t' = p.2 then Tobs p.2 p.1 else d v' t') d) v t =
        if (v, t) ∈ L then Tobs t v else d v t := by
  intro L
  induction L with
  | nil => intro d v t; simp
  | cons p L' ih =>
    intro d v t
    rw [List.foldl_cons, ih]
    by_cases hmem : (v, t) ∈ L'
    · rw [if_pos hmem, if_pos (List.mem_cons.mpr (Or.inr hmem))]
    · rw [if_neg hmem]
      by_cases hp : v = p.1 ∧ t = p.2
      · have hpair : (v, t) = p := by
          rcases hp with ⟨h1, h2⟩
          rw [h1, h2]
        rw [if_pos hp, if_pos (List.mem_cons.mpr (Or.inl hpair)), hp.1, hp.2]
      · have hpair : (v, t) ≠ p := by
          intro h
          rw [← h] at hp
          exact hp ⟨rfl, rfl⟩
        have hnotmem : (v, t) ∉ p :: L' := by
          intro h
          rcases List.mem_cons.mp h with h' | h'
          · exact hpair h'
          · exact hmem h'
        rw [if_neg hp, if_neg hnotmem]

theorem assignData_eq (Tobs : ℕ → ℕ → ℚ) (v_inds t_inds : List ℕ)
    (v t : ℕ) :
    Script.assignData Tobs v_inds t_inds v t =
      if (v, t) ∈ v_inds.zip t_inds then Tobs t v else 0 := by
  unfold Script.assignData
  rw [assign_fold]

/-- One summand of the duration row-sum: `tstep` for a member cell with a
positive statistic, `-tstep` for a negative one, `0` otherwise. -/
theorem signedDur_split (Tobs : ℕ → ℕ → ℚ) (v_inds t_inds : List ℕ)
    (tstep : ℚ) (v t : ℕ) :
    Script.signedDurData Tobs v_inds t_inds tstep v t =
      (if (v, t) ∈ v_inds.zip t_inds ∧ 0 < Tobs t v then tstep else 0) +
      (if (v, t) ∈ v_inds.zip t_inds ∧ Tobs t v < 0 then -tstep else 0) := by
  unfold Script.signedDurData
  rw [assignData_eq]
  by_cases hmem : (v, t) ∈ v_inds.zip t_inds
  · simp only [if_pos hmem]
    rcases lt_trichotomy (Tobs t v) 0 with h | h | h
    · have h1 : ¬ (0 : ℚ) < Tobs t v := by linarith
      have h2 : Tobs t v ≠ 0 := ne_of_lt h
      simp only [Script.signOf, if_neg h1, if_pos h, if_neg h2,
        if_pos (And.intro hmem h),
        if_neg (fun hc : _ ∧ (0:ℚ) < Tobs t v => h1 hc.2)]
      ring
    · have h1 : ¬ (0 : ℚ) < Tobs t v := by rw [h]; exact lt_irrefl 0
      have h2 : ¬ Tobs t v < 0 := by rw [h]; exact lt_irrefl 0
      simp only [Script.signOf, if_neg h1, if_neg h2, if_pos h,
        if_neg (fun hc : _ ∧ (0:ℚ) < Tobs t v => h1 hc.2),
        if_neg (fun hc : _ ∧ Tobs t v < (0:ℚ) => h2 hc.2)]
      ring
    · have h1 : ¬ Tobs t v < 0 := by linarith
      have h2 : Tobs t v ≠ 0 := ne_of_gt h
      simp only [Script.signOf, if_pos h, if_neg h2,
        if_pos (And.intro hmem h),
        if_neg (fun hc : _ ∧ Tobs t v < (0:ℚ) => h1 hc.2)]
      ring
  · simp only [if_neg hmem,
      if_neg (fun hc : _ ∧ (0:ℚ) < Tobs t v => hmem hc.1),
      if_neg (fun hc : _ ∧ Tobs t v < (0:ℚ) => hmem hc.1)]
    norm_num [Script.signOf]

/-- C10 core identity for one column: the stored value is
`1e3 · tstep · (#positive member points − #negative member points)`. -/
theorem summaryCol_eq_counts (Tobs : ℕ → ℕ → ℚ) (n_times : ℕ)
    (v_inds t_inds : List ℕ) (tstep : ℚ) (v : ℕ) :
    Script.summaryCol Tobs n_times v_inds t_inds tstep v =
      1000 * tstep *
        ((Script.posCount Tobs n_times (t_inds, v_inds) v : ℚ) -
          (Script.negCount Tobs n_times (t_inds, v_inds) v : ℚ)) := by
  unfold Script.summaryCol
  rw [Finset.sum_congr rfl
    (fun t _ => signedDur_split Tobs v_inds t_inds tstep v t)]
  rw [Finset.sum_add_distrib, ← Finset.sum_filter, ← Finset.sum_filter,
    Finset.sum_const, Finset.sum_const]
  unfold Script.posCount Script.negCount
  simp only [nsmul_eq_mul]
  ring

/-- Columns at or below the enumeration start are never written by the
loop. -/
theorem loopFill_untouched (Tobs : ℕ → ℕ → ℚ) (n_times : ℕ)
    (clusters : List (List ℕ × List ℕ)) (tstep : ℚ) :
    ∀ (good : List ℕ) (k : ℕ) (ds : ℕ → ℕ → ℚ) (c : ℕ), c ≤ k → ∀ v : ℕ,
      Script.loopFill Tobs n_times clusters tstep k good ds c v = ds c v := by
  intro good
  induction good with
  | nil => intro k ds c hc v; rfl
  | cons g rest ih =>
    intro k ds c hc v
    show Script.loopFill Tobs n_times clusters tstep (k + 1) rest
      (Script.updateCol ds (k + 1)
        (Script.colOf Tobs n_times tstep (clusters.getD g ([], [])))) c v =
      ds c v
    rw [ih (k + 1) _ c (le_trans hc (Nat.le_succ k)) v]
    unfold Script.updateCol
    rw [if_neg (by omega : ¬ c = k + 1)]

/-- The column written in iteration `ii` (counting from `k`) is exactly the
column computed, from a freshly zero-filled data buffer, for cluster
`good[ii]` — independent of every other cluster. -/
theorem loopFill_written (Tobs : ℕ → ℕ → ℚ) (n_times : ℕ)
    (clusters : List (List ℕ × List ℕ)) (tstep : ℚ) :
    ∀ (good : List ℕ) (k ii : ℕ) (h : ii < good.length)
      (ds : ℕ → ℕ → ℚ) (v : ℕ),
      Script.loopFill Tobs n_times clusters tstep k good ds (k + 1 + ii) v =
        Script.colOf Tobs n_times tstep
          (clusters.getD (good.get ⟨ii, h⟩) ([], [])) v := by
  intro good
  induction good with
  | nil => intro k ii h; exact absurd h (by simp)
  | cons g rest ih =>
    intro k ii h ds v
    cases ii with
    | zero =>
      show Script.loopFill Tobs n_times clusters tstep (k + 1) rest
        (Script.updateCol ds (k + 1)
          (Script.colOf Tobs n_times tstep (clusters.getD g ([], []))))
        (k + 1 + 0) v = _
      rw [loopFill_untouched Tobs n_times clusters tstep rest (k + 1) _
        (k + 1 + 0) (by omega) v]
      unfold Script.updateCol
      rw [if_pos (by omega : k + 1 + 0 = k + 1)]
      rfl
    | succ ii' =>
      show Script.loopFill Tobs n_times clusters tstep (k + 1) rest
        (Script.updateCol ds (k + 1)
          (Script.colOf Tobs n_times tstep (clusters.getD g ([], []))))
        (k + 1 + (ii' + 1)) v = _
      have harg : k + 1 + (ii' + 1) = (k + 1) + 1 + ii' := by omega
      rw [harg, ih (k + 1) ii' (Nat.lt_of_succ_lt_succ h) _ v]
      rfl

/-- C10: after the visualization loop, each summary column `ii + 1` holds,
at every vertex `v`, `1e3 · tstep · (count of the selected cluster's member
points at `v` with positive `T_obs` − count with negative `T_obs`)`,
depending only on that one cluster (the data buffer is recomputed from a
zero fill each iteration); and the final column 0 is the row-wise sum of
columns 1 through `good.length`. -/
theorem c10_data_summary :
    ∀ (Tobs : ℕ → ℕ → ℚ) (n_times : ℕ) (tstep : ℚ)
      (clusters : List (List ℕ × List ℕ)) (good : List ℕ),
      (∀ ii (h : ii < good.length) (v : ℕ),
        Script.loopColumns Tobs n_times clusters tstep good (ii + 1) v =
          1000 * tstep *
            ((Script.posCount Tobs n_times
                (clusters.getD (good.get ⟨ii, h⟩) ([], [])) v : ℚ) -
              (Script.negCount Tobs n_times
                (clusters.getD (good.get ⟨ii, h⟩) ([], [])) v : ℚ))) ∧
      (∀ v : ℕ,
        Script.finalSummary Tobs n_times clusters tstep good 0 v =
          ∑ i ∈ Finset.range good.length,
            Script.loopColumns Tobs n_times clusters tstep good (i + 1) v) := by
  intro Tobs n_times tstep clusters good
  constructor
  · intro ii h v
    have harg : ii + 1 = 0 + 1 + ii := by omega
    rw [Script.loopColumns, harg,
      loopFill_written Tobs n_times clusters tstep good 0 ii h _ v]
    rcases hget : clusters.getD (good.get ⟨ii, h⟩) ([], []) with ⟨tl, vl⟩
    unfold Script.colOf
    exact summaryCol_eq_counts Tobs n_times vl tl tstep v
  · intro v
    unfold Script.finalSummary
    simp only [Script.updateCol, if_pos rfl]
    rw [Finset.sum_range_succ' (fun c =>
      Script.loopColumns Tobs n_times clusters tstep good c v) good.length]
    have h0 : Script.loopColumns Tobs n_times clusters tstep good 0 v = 0 :=
      loopFill_untouched Tobs n_times clusters tstep good 0 _ 0 (le_refl 0) v
    rw [h0, add_zero]
    simp

/-- C10 witness: one selected cluster `([0], [0])` with `T_obs = 1`
everywhere, `tstep = 1`: column 1 at vertex 0 equals `1000 · 1 · (1 − 0)`. -/
theorem c10_data_summary_witness :
    (0 < ([0] : List ℕ).length) ∧
    (∀ v : ℕ,
      Script.loopColumns (fun _ _ => (1 : ℚ)) 1 [([0], [0])] 1 [0] (0 + 1) v =
        1000 * 1 *
          ((Script.posCount (fun _ _ => (1 : ℚ)) 1
              (([([0], [0])] : List (List ℕ × List ℕ)).getD
                (([0] : List ℕ).get ⟨0, by decide⟩) ([], [])) v : ℚ) -
            (Script.negCount (fun _ _ => (1 : ℚ)) 1
              (([([0], [0])] : List (List ℕ × List ℕ)).getD
                (([0] : List ℕ).get ⟨0, by decide⟩) ([], [])) v : ℚ))) :=
  ⟨by decide, fun v =>
    (c10_data_summary (fun _ _ => 1) 1 1 [([0], [0])] [0]).1 0 (by decide) v⟩
